import Mathlib

/-!
Verification of the chunked upload / reconstruction core of the repository.

Byte strings are modelled as `List Nat` (each element a byte value).  The
pure data transforms (`chunkData`, `reconstructData`, instruction
encoding/decoding, the chunk-map reconstruction in `readData`) are
translated directly from `src/unnamed/part_000` (utils/storage.js),
`src/unnamed/part_006` (PinocchioAdapter.js) and `src/unnamed/part_007`
(PinocchioWriter.js).  The stateful network loops
(`checkConfirmationStatus`, `signAndSendTransactionsParallel` from
`src/dist/retrieval/VectorSearchEngine.d.ts` and
`LargeDataStorage.retrieveLargeData`) are embedded as explicit state
passing: the RPC responses become oracle functions indexed by polling
round, and each loop is a structurally recursive function on the
remaining iteration budget.
-/

namespace X402

/-! ## utils/storage.js -/

/-- `PINOCCHIO_CHUNK_SIZE` from utils/storage.js. -/
def PINOCCHIO_CHUNK_SIZE : Nat := 1000

/-- Loop body of `chunkData` (utils/storage.js lines 87-93):
`for (let i = 0; i < data.length; i += chunkSize) chunks.push(data.slice(i, i + chunkSize))`.
The `fuel` argument only realises termination of the JS `for` loop; it is
instantiated with `data.length`, which the loop can never exceed when
`chunkSize > 0` (each iteration consumes at least one element).  For
`chunkSize = 0` the JS loop diverges; the model returns `[]` there and
every claim below assumes a positive chunk size. -/
def chunkGo (fuel : Nat) (data : List Nat) (chunkSize : Nat) : List (List Nat) :=
  match fuel with
  | 0 => []
  | fuel + 1 =>
    if data.isEmpty || chunkSize == 0 then []
    else data.take chunkSize :: chunkGo fuel (data.drop chunkSize) chunkSize

/-- `chunkData` from utils/storage.js: split `data` into consecutive
`chunkSize`-byte slices (the last possibly shorter). -/
def chunkData (data : List Nat) (chunkSize : Nat) : List (List Nat) :=
  chunkGo data.length data chunkSize

/-- `reconstructData` from utils/storage.js: `Buffer.concat(chunks)`. -/
def reconstructData (chunks : List (List Nat)) : List Nat :=
  chunks.flatten

/-! ### Basic chunking lemmas -/

theorem chunkGo_nil (fuel cs : Nat) : chunkGo fuel [] cs = [] := by
  cases fuel <;> simp [chunkGo]

theorem chunkGo_cons (fuel : Nat) (a : Nat) (l : List Nat) (cs : Nat)
    (hcs : 0 < cs) :
    chunkGo (fuel + 1) (a :: l) cs =
      (a :: l).take cs :: chunkGo fuel ((a :: l).drop cs) cs := by
  have hz : (cs == 0) = false := by
    simp [Nat.pos_iff_ne_zero.mp hcs]
  simp [chunkGo, hz]

theorem length_drop_cons (a : Nat) (l : List Nat) (cs : Nat) :
    ((a :: l).drop cs).length = l.length + 1 - cs := by
  simp [List.length_drop]

theorem chunkGo_fuel_irrel : ∀ (f g : Nat) (data : List Nat) (cs : Nat),
    data.length ≤ f → data.length ≤ g → 0 < cs →
    chunkGo f data cs = chunkGo g data cs := by
  intro f
  induction f with
  | zero =>
    intro g data cs hf _ _
    have : data = [] := List.eq_nil_of_length_eq_zero (Nat.le_zero.mp hf)
    subst this
    simp [chunkGo_nil]
  | succ n ih =>
    intro g data cs hf hg hcs
    cases data with
    | nil => simp [chunkGo_nil]
    | cons a l =>
      cases g with
      | zero => simp at hg
      | succ m =>
        rw [chunkGo_cons n a l cs hcs, chunkGo_cons m a l cs hcs]
        congr 1
        apply ih
        · rw [length_drop_cons]
          simp only [List.length_cons] at hf
          omega
        · rw [length_drop_cons]
          simp only [List.length_cons] at hg
          omega
        · exact hcs

/-- Unfolding equation for `chunkData` on nonempty input. -/
theorem chunkData_cons (data : List Nat) (cs : Nat) (hd : data ≠ [])
    (hcs : 0 < cs) :
    chunkData data cs = data.take cs :: chunkData (data.drop cs) cs := by
  cases data with
  | nil => exact absurd rfl hd
  | cons a l =>
    show chunkGo (l.length + 1) (a :: l) cs = _
    rw [chunkGo_cons l.length a l cs hcs]
    congr 1
    apply chunkGo_fuel_irrel
    · rw [length_drop_cons]
      omega
    · exact le_refl _
    · exact hcs

theorem chunkData_nil (cs : Nat) : chunkData [] cs = [] := rfl

/-- The chunks concatenate back to the data. -/
theorem chunkData_flatten (data : List Nat) (cs : Nat) (hcs : 0 < cs) :
    (chunkData data cs).flatten = data := by
  suffices h : ∀ n (d : List Nat), d.length ≤ n → (chunkData d cs).flatten = d by
    exact h data.length data (le_refl _)
  intro n
  induction n with
  | zero =>
    intro d hd
    have : d = [] := List.eq_nil_of_length_eq_zero (Nat.le_zero.mp hd)
    subst this
    simp [chunkData_nil]
  | succ m ih =>
    intro d hd
    cases d with
    | nil => simp [chunkData_nil]
    | cons a l =>
      rw [chunkData_cons (a :: l) cs (by simp) hcs]
      simp only [List.flatten_cons]
      rw [ih ((a :: l).drop cs)
        (by rw [length_drop_cons]
            simp only [List.length_cons] at hd
            omega)]
      exact List.take_append_drop cs (a :: l)

/-- Chunk count is the ceiling `⌈n / cs⌉ = (n + cs - 1) / cs`. -/
theorem chunkData_length (data : List Nat) (cs : Nat) (hcs : 0 < cs) :
    (chunkData data cs).length = (data.length + cs - 1) / cs := by
  suffices h : ∀ n (d : List Nat), d.length ≤ n →
      (chunkData d cs).length = (d.length + cs - 1) / cs by
    exact h data.length data (le_refl _)
  intro n
  induction n with
  | zero =>
    intro d hd
    have : d = [] := List.eq_nil_of_length_eq_zero (Nat.le_zero.mp hd)
    subst this
    simp only [chunkData_nil, List.length_nil, Nat.zero_add]
    exact (Nat.div_eq_of_lt (by omega)).symm
  | succ m ih =>
    intro d hd
    cases d with
    | nil =>
      simp only [chunkData_nil, List.length_nil, Nat.zero_add]
      exact (Nat.div_eq_of_lt (by omega)).symm
    | cons a l =>
      rw [chunkData_cons (a :: l) cs (by simp) hcs]
      simp only [List.length_cons]
      have hdroplen : ((a :: l).drop cs).length = l.length + 1 - cs :=
        length_drop_cons a l cs
      rw [ih ((a :: l).drop cs)
        (by rw [length_drop_cons]
            simp only [List.length_cons] at hd
            omega), hdroplen]
      rcases Nat.lt_or_ge (l.length + 1) cs with hlt | hge
      · have h1 : l.length + 1 - cs = 0 := by omega
        rw [h1]
        have h2 : (0 + cs - 1) / cs = 0 := Nat.div_eq_of_lt (by omega)
        have h3 : (l.length + 1 + cs - 1) / cs = 1 :=
          Nat.div_eq_of_lt_le (by omega) (by omega)
        omega
      · have h1 : l.length + 1 + cs - 1 = (l.length + 1 - cs + cs - 1) + cs := by
          omega
        rw [h1, Nat.add_div_right _ hcs]

/-- No chunk is ever empty, and none exceeds the chunk size. -/
theorem chunkData_mem_length (data : List Nat) (cs : Nat) (hcs : 0 < cs) :
    ∀ c ∈ chunkData data cs, c ≠ [] ∧ c.length ≤ cs := by
  suffices h : ∀ n (d : List Nat), d.length ≤ n →
      ∀ c ∈ chunkData d cs, c ≠ [] ∧ c.length ≤ cs by
    exact h data.length data (le_refl _)
  intro n
  induction n with
  | zero =>
    intro d hd c hc
    have : d = [] := List.eq_nil_of_length_eq_zero (Nat.le_zero.mp hd)
    subst this
    simp [chunkData_nil] at hc
  | succ m ih =>
    intro d hd c hc
    cases d with
    | nil => simp [chunkData_nil] at hc
    | cons a l =>
      rw [chunkData_cons (a :: l) cs (by simp) hcs] at hc
      rcases List.mem_cons.mp hc with h | h
      · subst h
        constructor
        · have hlen : ((a :: l).take cs).length = min cs (l.length + 1) := by
            simp [List.length_take]
          intro hnil
          rw [hnil] at hlen
          simp only [List.length_nil] at hlen
          omega
        · simp [List.length_take]
      · exact ih ((a :: l).drop cs)
          (by rw [length_drop_cons]
              simp only [List.length_cons] at hd
              omega) c h

/-- Every chunk except the last has length exactly `cs`. -/
theorem chunkData_full_pieces (data : List Nat) (cs : Nat) (hcs : 0 < cs) :
    ∀ i, i + 1 < (chunkData data cs).length →
      ((chunkData data cs).getD i []).length = cs := by
  suffices h : ∀ n (d : List Nat), d.length ≤ n →
      ∀ i, i + 1 < (chunkData d cs).length →
        ((chunkData d cs).getD i []).length = cs by
    exact h data.length data (le_refl _)
  intro n
  induction n with
  | zero =>
    intro d hd i hi
    have : d = [] := List.eq_nil_of_length_eq_zero (Nat.le_zero.mp hd)
    subst this
    simp [chunkData_nil] at hi
  | succ m ih =>
    intro d hd i hi
    cases d with
    | nil => simp [chunkData_nil] at hi
    | cons a l =>
      rw [chunkData_cons (a :: l) cs (by simp) hcs] at hi ⊢
      cases i with
      | zero =>
        simp only [List.getD_cons_zero]
        simp only [List.length_cons] at hi
        have hrest : chunkData ((a :: l).drop cs) cs ≠ [] := by
          intro hnil
          rw [hnil] at hi
          simp at hi
        have hdropne : (a :: l).drop cs ≠ [] := by
          intro hnil
          rw [hnil, chunkData_nil] at hrest
          exact hrest rfl
        have hcslen : cs < l.length + 1 := by
          by_contra hle
          push_neg at hle
          have : (a :: l).drop cs = [] := by
            apply List.drop_eq_nil_of_le
            simpa using hle
          exact hdropne this
        simp only [List.length_take, List.length_cons]
        omega
      | succ j =>
        simp only [List.getD_cons_succ]
        apply ih ((a :: l).drop cs)
          (by rw [length_drop_cons]
              simp only [List.length_cons] at hd
              omega) j
        simp only [List.length_cons] at hi
        omega

/-- The last chunk is nonempty and at most `cs` bytes. -/
theorem chunkData_last (data : List Nat) (cs : Nat) (hcs : 0 < cs)
    (hd : data ≠ []) :
    0 < (((chunkData data cs).getLast?).getD []).length ∧
      (((chunkData data cs).getLast?).getD []).length ≤ cs := by
  have hne : chunkData data cs ≠ [] := by
    intro hnil
    have := chunkData_flatten data cs hcs
    rw [hnil] at this
    exact hd this.symm
  have hlast : (chunkData data cs).getLast? =
      some ((chunkData data cs).getLast hne) :=
    List.getLast?_eq_getLast_of_ne_nil hne
  have hmem : ((chunkData data cs).getLast?).getD [] ∈ chunkData data cs := by
    rw [hlast]
    exact List.getLast_mem hne
  have := chunkData_mem_length data cs hcs _ hmem
  constructor
  · cases hval : ((chunkData data cs).getLast?).getD [] with
    | nil => exact absurd hval this.1
    | cons x xs => simp [hval]
  · exact this.2

/-! ## PinocchioAdapter.js: chunk-transaction instruction layout

`postChunk` (PinocchioAdapter.js lines 179-224) serialises
`discriminator(1) | session_id(16) | chunk_index(u32 LE) | method(1) | chunk bytes`,
with discriminator `0x04` and method byte `0`.  `readData`
(lines 94-117) parses the same layout back out of transaction history. -/

/-- `POST_CHUNK_DISCRIMINATOR` (0x04). -/
def POST_CHUNK_DISCRIMINATOR : Nat := 4

/-- `writeUInt32LE`: the four little-endian bytes of a `u32`. -/
def u32le (n : Nat) : List Nat :=
  [n % 256, n / 256 % 256, n / 65536 % 256, n / 16777216 % 256]

/-- `readUInt32LE` on the first four bytes of a buffer. -/
def readU32LE : List Nat → Nat
  | b0 :: b1 :: b2 :: b3 :: _ => b0 + 256 * b1 + 65536 * b2 + 16777216 * b3
  | _ => 0

/-- Instruction data built by `PinocchioAdapter.postChunk`: discriminator
`0x04`, 16-byte session id, little-endian `u32` chunk index, method byte
`0`, then the raw chunk bytes. -/
def buildChunkInstruction (sessionId : List Nat) (chunkIndex : Nat)
    (chunk : List Nat) : List Nat :=
  POST_CHUNK_DISCRIMINATOR :: (sessionId ++ u32le chunkIndex ++ 0 :: chunk)

/-- The parsing step of `PinocchioAdapter.readData` (lines 98-113): skip
instructions shorter than 22 bytes or with the wrong discriminator, read
the chunk index at offset 17 and take the bytes from offset 22 on. -/
def parseChunkInstruction (data : List Nat) : Option (Nat × List Nat) :=
  if data.length < 22 then none
  else if data.headD 0 != POST_CHUNK_DISCRIMINATOR then none
  else some (readU32LE (data.drop 17), data.drop 22)

/-- JS `Map.prototype.set` on an association list: replace the value when
the key is present (keeping its position), otherwise append. -/
def mapSet (m : List (Nat × List Nat)) (k : Nat) (v : List Nat) :
    List (Nat × List Nat) :=
  if m.any (fun p => p.1 == k) then
    m.map (fun p => if p.1 == k then (k, v) else p)
  else m ++ [(k, v)]

/-- The chunk-map construction loop of `readData`: parse every
instruction, `chunkMap.set(chunkIndex, chunkData)` on success, skip
otherwise. -/
def collectChunks (instrs : List (List Nat)) : List (Nat × List Nat) :=
  instrs.foldl (fun acc d =>
    match parseChunkInstruction d with
    | some ic => mapSet acc ic.1 ic.2
    | none => acc) []

/-- Step 5 of `readData` (lines 125-128): sort the collected chunk
indices ascending (`.sort((a, b) => a - b)`; the keys are distinct, so
any comparison sort yields this list), look each chunk up, concatenate. -/
def reassemble (m : List (Nat × List Nat)) : List Nat :=
  reconstructData
    (((m.map Prod.fst).insertionSort (· ≤ ·)).map
      (fun i => (m.lookup i).getD []))

/-- The `console.warn` condition of `readData` (line 122): the observed
chunk count differs from the session's declared `totalChunks`. -/
def chunkCountWarning (totalChunks : Nat) (instrs : List (List Nat)) : Bool :=
  (collectChunks instrs).length != totalChunks

/-- Base64-alphabet membership, the body of the regex
`/^[A-Za-z0-9+\x2f=]+$/` in `readData` line 134. -/
def isBase64Char (b : Nat) : Bool :=
  (65 ≤ b && b ≤ 90) || (97 ≤ b && b ≤ 122) || (48 ≤ b && b ≤ 57) ||
    b == 43 || b == 47 || b == 61

/-- ASCII whitespace, matched by `\s` in `sample.replace(/\s/g, ...)`. -/
def isSpaceByte (b : Nat) : Bool :=
  b == 32 || (9 ≤ b && b ≤ 13)

/-- Step 6 of `readData` (lines 130-139): the base64 guard.  The first
byte must be ≥ 65 or `/` (47) or `+` (43); then the first 100 bytes,
read as `ascii` (which masks each byte to 7 bits) with whitespace
removed, must be a nonempty run of base64-alphabet characters. -/
def looksBase64 (d : List Nat) : Bool :=
  let fb := d.headD 0
  if 65 ≤ fb || fb == 47 || fb == 43 then
    let stripped := ((d.take 100).map (· % 128)).filter (fun b => !(isSpaceByte b))
    !stripped.isEmpty && stripped.all isBase64Char
  else false

/-- Steps 6-7 of `readData`: base64-decode when the heuristic fires, then
strip the `0x01` marker and decompress when the first byte is `0x01`.
The external codecs (`Buffer.from(·, 'base64')` and zlib `gunzip`) are
parameters. -/
def decodeHeuristics (b64 decomp : List Nat → List Nat) (d : List Nat) :
    List Nat :=
  let d2 := if looksBase64 d then b64 d else d
  if 1 ≤ d2.length && d2.headD 0 == 1 then decomp (d2.drop 1) else d2

/-- `PinocchioAdapter.readData` (lines 59-151) given the parsed session
`totalChunks` and the chunk-bearing instruction datas found in the
account's transaction history, in processing order.  Returns the
reconstructed bytes together with the warning flag of line 122-124. -/
def readData (b64 decomp : List Nat → List Nat) (totalChunks : Nat)
    (instrs : List (List Nat)) : Except String (List Nat × Bool) :=
  if (collectChunks instrs).isEmpty then
    Except.error "No chunks found in Pinocchio session"
  else
    Except.ok (decodeHeuristics b64 decomp (reassemble (collectChunks instrs)),
      (collectChunks instrs).length != totalChunks)

/-- `PinocchioAdapter.storeData` (lines 32-55): optionally compress (the
zlib `gzip` codec is the `compress` parameter; note no marker byte is
prepended), chunk at `PINOCCHIO_CHUNK_SIZE`, and post chunk `i` with
instruction data `buildChunkInstruction sessionId i chunk`.  Returns the
posted instruction datas in order and the declared chunk count of the
created session. -/
def storeData (compress : List Nat → List Nat) (sessionId : List Nat)
    (payload : List Nat) (compression : Bool) : List (List Nat) × Nat :=
  let dataBuffer := if compression then compress payload else payload
  let chunks := chunkData dataBuffer PINOCCHIO_CHUNK_SIZE
  (chunks.enum.map (fun p => buildChunkInstruction sessionId p.1 p.2),
    chunks.length)

/-- Store with `PinocchioAdapter.storeData`, then read the resulting
session back with `PinocchioAdapter.readData` (the posted chunk
transactions are exactly what the history scan finds, and the session
account's `totalChunks` is what `createSession` declared). -/
def adapterRoundTrip (compress b64 decomp : List Nat → List Nat)
    (sessionId payload : List Nat) (compression : Bool) :
    Except String (List Nat × Bool) :=
  let s := storeData compress sessionId payload compression
  readData b64 decomp s.2 s.1

/-! ### Instruction encode/decode lemmas -/

theorem readU32LE_u32le (n : Nat) (rest : List Nat) (h : n < 4294967296) :
    readU32LE (u32le n ++ rest) = n := by
  simp only [u32le, List.cons_append, List.nil_append, readU32LE]
  omega

/-- Parsing inverts building: the chunk-transaction field layout is
stable between `postChunk` and the history-scan parser. -/
theorem parse_build (sid : List Nat) (i : Nat) (c : List Nat)
    (h16 : sid.length = 16) (hi : i < 4294967296) :
    parseChunkInstruction (buildChunkInstruction sid i c) = some (i, c) := by
  have hlen : (buildChunkInstruction sid i c).length = 22 + c.length := by
    simp [buildChunkInstruction, u32le, h16]
    omega
  have hd17 : (buildChunkInstruction sid i c).drop 17 = u32le i ++ 0 :: c := by
    show (POST_CHUNK_DISCRIMINATOR :: (sid ++ u32le i ++ 0 :: c)).drop 17
      = u32le i ++ 0 :: c
    have : (17 : Nat) = 1 + 16 := rfl
    rw [this, ← List.drop_drop, List.drop_one, List.tail_cons,
      List.append_assoc, List.drop_left' h16]
  have hd22 : (buildChunkInstruction sid i c).drop 22 = c := by
    show (POST_CHUNK_DISCRIMINATOR :: (sid ++ u32le i ++ 0 :: c)).drop 22 = c
    have h22 : (22 : Nat) = 1 + 21 := rfl
    rw [h22, ← List.drop_drop, List.drop_one, List.tail_cons]
    have hsplit : sid ++ u32le i ++ 0 :: c = (sid ++ u32le i ++ [0]) ++ c := by
      simp
    rw [hsplit, List.drop_left']
    simp [u32le, h16]
  unfold parseChunkInstruction
  rw [hlen, hd17, hd22]
  have hnotlt : ¬ (22 + c.length < 22) := by omega
  rw [if_neg hnotlt]
  have hhead : (buildChunkInstruction sid i c).headD 0 = POST_CHUNK_DISCRIMINATOR := rfl
  rw [hhead]
  simp [readU32LE_u32le i (0 :: c) hi]

theorem lookup_cons (k : Nat) (a : Nat × List Nat) (l : List (Nat × List Nat)) :
    List.lookup k (a :: l) = if k == a.1 then some a.2 else List.lookup k l := by
  cases h : k == a.1 <;> simp [List.lookup, h]

theorem mapSet_append_of_not_mem (m : List (Nat × List Nat)) (k : Nat)
    (v : List Nat) (h : ∀ p ∈ m, p.1 ≠ k) :
    mapSet m k v = m ++ [(k, v)] := by
  unfold mapSet
  rw [if_neg]
  intro hany
  rcases List.any_eq_true.mp hany with ⟨p, hp, hpk⟩
  exact h p hp (beq_iff_eq.mp hpk)

theorem lookup_map_replace (k : Nat) (v : List Nat) :
    ∀ (m : List (Nat × List Nat)), m.any (fun p => p.1 == k) = true →
    (m.map (fun p => if p.1 == k then (k, v) else p)).lookup k = some v := by
  intro m
  induction m with
  | nil => simp
  | cons p rest ih =>
    intro hany
    simp only [List.map_cons]
    by_cases hp : p.1 = k
    · rw [if_pos (by simp [hp]), lookup_cons, if_pos (by simp)]
    · rw [if_neg (by simp [hp]), lookup_cons,
        if_neg (by simp only [beq_iff_eq]; exact fun h2 => hp h2.symm)]
      apply ih
      have hb : (p.1 == k) = false := beq_eq_false_iff_ne.mpr hp
      simp only [List.any_cons, hb, Bool.false_or] at hany
      exact hany

theorem lookup_append_self (k : Nat) (v : List Nat) :
    ∀ (m : List (Nat × List Nat)), (∀ p ∈ m, (p.1 == k) = false) →
    (m ++ [(k, v)]).lookup k = some v := by
  intro m
  induction m with
  | nil => simp [List.lookup]
  | cons p rest ih =>
    intro h
    rw [List.cons_append, lookup_cons, if_neg]
    · exact ih (fun q hq => h q (List.mem_cons_of_mem p hq))
    · have hne : p.1 ≠ k := beq_eq_false_iff_ne.mp (h p (List.mem_cons_self p rest))
      simp only [beq_iff_eq]
      exact fun h2 => hne h2.symm

/-- JS `Map.set` always makes `k ↦ v` the binding found by a subsequent
lookup, overwriting any earlier binding of `k`. -/
theorem lookup_mapSet_self (m : List (Nat × List Nat)) (k : Nat)
    (v : List Nat) : (mapSet m k v).lookup k = some v := by
  unfold mapSet
  cases hany : m.any (fun p => p.1 == k) with
  | true =>
    rw [if_pos rfl]
    exact lookup_map_replace k v m hany
  | false =>
    simp only [Bool.false_eq_true, if_false]
    exact lookup_append_self k v m
      (fun p hp => Bool.eq_false_iff.mpr (List.any_eq_false.mp hany p hp))

theorem collectChunks_append_last (l : List (List Nat)) (d : List Nat)
    (i : Nat) (c : List Nat) (h : parseChunkInstruction d = some (i, c)) :
    collectChunks (l ++ [d]) = mapSet (collectChunks l) i c := by
  unfold collectChunks
  rw [List.foldl_append]
  simp [h]

/-! ### Reconstruction of a stored session -/

theorem collect_enumFrom (sid : List Nat) (h16 : sid.length = 16) :
    ∀ (cs : List (List Nat)) (s : Nat) (acc : List (Nat × List Nat)),
    s + cs.length ≤ 4294967296 →
    (∀ p ∈ acc, p.1 < s) →
    List.foldl (fun acc d =>
        match parseChunkInstruction d with
        | some ic => mapSet acc ic.1 ic.2
        | none => acc) acc
      ((List.enumFrom s cs).map (fun p => buildChunkInstruction sid p.1 p.2))
      = acc ++ List.enumFrom s cs := by
  intro cs
  induction cs with
  | nil => simp
  | cons c cs ih =>
    intro s acc hle hacc
    have henum : List.enumFrom s (c :: cs) = (s, c) :: List.enumFrom (s + 1) cs := rfl
    rw [henum]
    simp only [List.map_cons, List.foldl_cons]
    rw [parse_build sid s c h16 (by simp only [List.length_cons] at hle; omega)]
    simp only
    rw [mapSet_append_of_not_mem acc s c (fun p hp => Nat.ne_of_lt (hacc p hp))]
    rw [ih (s + 1) (acc ++ [(s, c)])
      (by simp only [List.length_cons] at hle; omega)
      (by intro p hp
          rcases List.mem_append.mp hp with h | h
          · exact Nat.lt_succ_of_lt (hacc p h)
          · simp only [List.mem_singleton] at h
            subst h
            exact Nat.lt_succ_self s)]
    simp

/-- Collecting the instructions posted by `storeData` yields exactly the
enumerated chunk list. -/
theorem collectChunks_store (sid : List Nat) (h16 : sid.length = 16)
    (chunks : List (List Nat)) (hlen : chunks.length ≤ 4294967296) :
    collectChunks (chunks.enum.map (fun p => buildChunkInstruction sid p.1 p.2))
      = chunks.enum := by
  unfold collectChunks
  rw [List.enum_eq_enumFrom]
  rw [collect_enumFrom sid h16 chunks 0 [] (by omega) (by simp)]
  simp [List.enum_eq_enumFrom]

theorem map_lookup_enumFrom :
    ∀ (cs : List (List Nat)) (s : Nat),
    (List.range' s cs.length).map
      (fun i => ((List.enumFrom s cs).lookup i).getD []) = cs := by
  intro cs
  induction cs with
  | nil => simp
  | cons c cs ih =>
    intro s
    have henum : List.enumFrom s (c :: cs) = (s, c) :: List.enumFrom (s + 1) cs := rfl
    have hrange : List.range' s (c :: cs).length = s :: List.range' (s + 1) cs.length := by
      simp [List.range'_succ]
    rw [henum, hrange, List.map_cons]
    congr 1
    · rw [lookup_cons]
      simp
    · rw [List.map_congr_left (g := fun i => ((List.enumFrom (s + 1) cs).lookup i).getD [])]
      · exact ih (s + 1)
      · intro i hi
        have hbound := List.mem_range'_1.mp hi
        rw [lookup_cons, if_neg]
        simp only [beq_iff_eq]
        omega

/-- Reassembling the enumerated chunk list restores the concatenated
data: the keys are already `0, 1, …`, sorting leaves them in place, and
each lookup returns the chunk itself. -/
theorem reassemble_enum (cs : List (List Nat)) :
    reassemble cs.enum = cs.flatten := by
  unfold reassemble reconstructData
  rw [List.enum_map_fst, List.range_eq_range']
  have hsorted : List.Sorted (· ≤ ·) (List.range' 0 cs.length) := by
    apply List.Pairwise.imp (fun h => Nat.le_of_lt h)
    exact List.pairwise_lt_range' 0 cs.length 1
  rw [List.Sorted.insertionSort_eq hsorted]
  rw [List.enum_eq_enumFrom]
  rw [map_lookup_enumFrom cs 0]

/-- General evaluation of store-then-read: the pre-heuristic
reconstruction always restores the encoded byte stream exactly; the
returned data is that stream with the read-path heuristics applied, and
no chunk-count warning fires. -/
theorem adapterRoundTrip_eq (compress b64 decomp : List Nat → List Nat)
    (sid payload : List Nat) (compression : Bool)
    (h16 : sid.length = 16)
    (hne : (if compression then compress payload else payload) ≠ [])
    (hlen : (if compression then compress payload else payload).length ≤ 4294967296) :
    adapterRoundTrip compress b64 decomp sid payload compression =
      Except.ok (decodeHeuristics b64 decomp
        (if compression then compress payload else payload), false) := by
  have hpos : 0 < PINOCCHIO_CHUNK_SIZE := by
    unfold PINOCCHIO_CHUNK_SIZE
    omega
  set dataBuffer := if compression then compress payload else payload with hdb
  set chunks := chunkData dataBuffer PINOCCHIO_CHUNK_SIZE with hch
  have hcount : chunks.length ≤ 4294967296 := by
    rw [hch, chunkData_length dataBuffer PINOCCHIO_CHUNK_SIZE hpos]
    unfold PINOCCHIO_CHUNK_SIZE
    omega
  have hcoll : collectChunks
      (chunks.enum.map (fun p => buildChunkInstruction sid p.1 p.2))
      = chunks.enum := collectChunks_store sid h16 chunks hcount
  have hchne : chunks ≠ [] := by
    intro hnil
    have := chunkData_flatten dataBuffer PINOCCHIO_CHUNK_SIZE hpos
    rw [← hch, hnil] at this
    exact hne this.symm
  have henumne : chunks.enum.isEmpty = false := by
    cases hc : chunks with
    | nil => exact absurd hc hchne
    | cons a l => rfl
  unfold adapterRoundTrip storeData readData
  simp only [← hdb, ← hch, hcoll, henumne, Bool.false_eq_true, if_false]
  rw [reassemble_enum chunks, hch,
    chunkData_flatten dataBuffer PINOCCHIO_CHUNK_SIZE hpos, ← hch]
  congr 1
  ext
  · rfl
  · simp [List.enum_length]

/-- C1.  The claim asserts the round trip
`readData (storeData payload compression) = payload` for every non-empty
payload, with and without compression.  It FAILS with compression: the
code never writes the `0x01` compression marker that `readData` checks
for, and real gzip output begins with the magic byte `0x1f` (31), which
triggers neither the base64 heuristic (first byte must be ≥ 65 or 47 or
43) nor the decompression branch (first byte must be 1) — so `readData`
returns the still-compressed bytes.  Stated for any compression codec
whose output begins with the gzip magic byte, which zlib's gzip always
does (RFC 1952). -/
theorem adapter_compressed_roundtrip_returns_compressed_bytes
    (compress b64 decomp : List Nat → List Nat) (sid payload : List Nat)
    (h16 : sid.length = 16)
    (hmagic : (compress payload).headD 0 = 31)
    (hnz : compress payload ≠ [])
    (hlen : (compress payload).length ≤ 4294967296)
    (hpay : payload.headD 0 ≠ 31) :
    adapterRoundTrip compress b64 decomp sid payload true =
      Except.ok (compress payload, false) ∧
    ∀ w, adapterRoundTrip compress b64 decomp sid payload true ≠
      Except.ok (payload, w) := by
  have heur : decodeHeuristics b64 decomp (compress payload) = compress payload := by
    unfold decodeHeuristics looksBase64
    rw [hmagic]
    have h1 : (65 ≤ 31 || (31 == 47) || (31 == 43)) = false := by decide
    simp only [h1, Bool.false_eq_true, if_false]
    rw [hmagic]
    simp
  have hmain : adapterRoundTrip compress b64 decomp sid payload true =
      Except.ok (compress payload, false) := by
    have h0 := adapterRoundTrip_eq compress b64 decomp sid payload true h16
      hnz hlen
    exact h0.trans (congrArg (fun d => Except.ok (d, false)) heur)
  refine ⟨hmain, ?_⟩
  intro w hcontra
  rw [hmain] at hcontra
  have : compress payload = payload := by
    injection hcontra with h
    exact congrArg Prod.fst h
  rw [this] at hmagic
  exact hpay hmagic

/-- Witness: a concrete run of the failing input.  `fun l => 31 :: l`
stands in for gzip (its output starts with the 0x1f magic byte, the only
property the theorem uses); the payload is the two bytes `[104, 105]`
("hi").  Read-back returns the compressed stream, not the payload. -/
theorem adapter_compressed_roundtrip_witness :
    adapterRoundTrip (fun l => 31 :: l) (fun l => l) (fun l => l)
      (List.replicate 16 0) [104, 105] true =
      Except.ok ([31, 104, 105], false) ∧
    adapterRoundTrip (fun l => 31 :: l) (fun l => l) (fun l => l)
      (List.replicate 16 0) [104, 105] true ≠
      Except.ok ([104, 105], false) := by
  have h := adapter_compressed_roundtrip_returns_compressed_bytes
    (fun l => 31 :: l) (fun l => l) (fun l => l)
    (List.replicate 16 0) [104, 105]
    (by decide) (by decide) (by decide) (by decide) (by decide)
  exact ⟨h.1, h.2 false⟩

/-- C2 counterexample.  A zero-length payload is NOT rejected: `chunkData`
returns zero chunks and `storeData` (without compression) silently
creates a session declaring zero chunks and posts nothing — there is no
`InvalidInput` error anywhere in the code. -/
theorem storeData_empty_payload_not_rejected :
    chunkData [] PINOCCHIO_CHUNK_SIZE = [] ∧
    storeData (fun l => l) (List.replicate 16 0) [] false = ([], 0) := by
  exact ⟨rfl, rfl⟩

/-- C2 (amended).  No produced chunk is ever empty (for any positive
chunk size), but a zero-length payload is not rejected: `storeData`
returns a session with zero chunks instead of raising `InvalidInput`. -/
theorem chunkData_no_empty_chunks (data : List Nat) (cs : Nat)
    (hcs : 0 < cs) :
    (∀ c ∈ chunkData data cs, c ≠ []) ∧
    (∀ (compress : List Nat → List Nat) (sid : List Nat),
      storeData compress sid [] false = ([], 0)) := by
  constructor
  · intro c hc
    exact (chunkData_mem_length data cs hcs c hc).1
  · intro compress sid
    rfl

/-- Witness for C2's amended theorem at a concrete input. -/
theorem chunkData_no_empty_chunks_witness :
    ([5, 6] : List Nat) ≠ [] ∧
    storeData (fun l => l) (List.replicate 16 0) [] false = ([], 0) := by
  have h := chunkData_no_empty_chunks [5, 6] 1000 (by decide)
  refine ⟨?_, h.2 (fun l => l) (List.replicate 16 0)⟩
  apply h.1 [5, 6]
  decide

/-- C3.  For nonempty `data` and positive chunk size `s`, `chunkData`
returns exactly `⌈n / s⌉ = (n + s - 1) / s` chunks; every chunk except
possibly the last has length exactly `s`; the last chunk has length in
`(0, s]`; and the chunks concatenate back to `data`. -/
theorem chunkData_spec (data : List Nat) (cs : Nat) (hcs : 0 < cs)
    (hne : data ≠ []) :
    (chunkData data cs).length = (data.length + cs - 1) / cs ∧
    reconstructData (chunkData data cs) = data ∧
    (∀ i, i + 1 < (chunkData data cs).length →
      ((chunkData data cs).getD i []).length = cs) ∧
    0 < (((chunkData data cs).getLast?).getD []).length ∧
    (((chunkData data cs).getLast?).getD []).length ≤ cs := by
  refine ⟨chunkData_length data cs hcs, ?_, chunkData_full_pieces data cs hcs,
    (chunkData_last data cs hcs hne).1, (chunkData_last data cs hcs hne).2⟩
  unfold reconstructData
  exact chunkData_flatten data cs hcs

/-- Witness for C3: five bytes at chunk size 2 give `⌈5/2⌉ = 3` chunks
`[7,8] [9,10] [11]` that rebuild the input. -/
theorem chunkData_spec_witness :
    (chunkData [7, 8, 9, 10, 11] 2).length = 3 ∧
    reconstructData (chunkData [7, 8, 9, 10, 11] 2) = [7, 8, 9, 10, 11] ∧
    ((chunkData [7, 8, 9, 10, 11] 2).getD 0 []).length = 2 ∧
    0 < (((chunkData [7, 8, 9, 10, 11] 2).getLast?).getD []).length ∧
    (((chunkData [7, 8, 9, 10, 11] 2).getLast?).getD []).length ≤ 2 := by
  have h := chunkData_spec [7, 8, 9, 10, 11] 2 (by decide) (by decide)
  exact ⟨h.1.trans (by decide), h.2.1, h.2.2.1 0 (by rw [h.1]; decide),
    h.2.2.2.1, h.2.2.2.2⟩

/-! ### Order invariance of the chunk map (C8) and duplicate handling (C10) -/

/-- The `(chunkIndex, bytes)` pairs successfully parsed out of the
instruction list, in processing order. -/
def parsedPairs (instrs : List (List Nat)) : List (Nat × List Nat) :=
  instrs.filterMap parseChunkInstruction

theorem collect_foldl_parsed :
    ∀ (l : List (List Nat)) (acc : List (Nat × List Nat)),
    l.foldl (fun acc d =>
      match parseChunkInstruction d with
      | some ic => mapSet acc ic.1 ic.2
      | none => acc) acc
    = (l.filterMap parseChunkInstruction).foldl
        (fun acc p => mapSet acc p.1 p.2) acc := by
  intro l
  induction l with
  | nil => intro acc; rfl
  | cons d l ih =>
    intro acc
    cases hp : parseChunkInstruction d with
    | none => simp [List.foldl_cons, List.filterMap_cons, hp, ih]
    | some ic => simp [List.foldl_cons, List.filterMap_cons, hp, ih]

theorem foldl_mapSet_nodup :
    ∀ (ps acc : List (Nat × List Nat)),
    (((acc ++ ps).map Prod.fst).Nodup) →
    ps.foldl (fun acc p => mapSet acc p.1 p.2) acc = acc ++ ps := by
  intro ps
  induction ps with
  | nil => intro acc _; simp
  | cons p ps ih =>
    intro acc hnd
    simp only [List.foldl_cons]
    have hfresh : ∀ q ∈ acc, q.1 ≠ p.1 := by
      intro q hq hqp
      rw [List.map_append, List.map_cons] at hnd
      rcases List.nodup_append.mp hnd with ⟨_, _, hdisj⟩
      exact hdisj (List.mem_map_of_mem Prod.fst hq)
        (by rw [hqp]; exact List.mem_cons_self _ _)
    rw [mapSet_append_of_not_mem acc p.1 p.2 hfresh]
    have hre : acc ++ p :: ps = (acc ++ [p]) ++ ps := by
      rw [List.append_cons]
    rw [hre] at hnd
    rw [ih (acc ++ [p]) hnd]
    simp

/-- Under distinct keys, looking a key up in an association list is
invariant under permutation of the list. -/
theorem lookup_eq_of_perm :
    ∀ {m1 m2 : List (Nat × List Nat)}, m1.Perm m2 →
    ((m1.map Prod.fst).Nodup) → ∀ k, m1.lookup k = m2.lookup k := by
  intro m1 m2 h
  induction h with
  | nil => intro _ k; rfl
  | cons x h ih =>
    intro hnd k
    rw [lookup_cons, lookup_cons]
    cases hx : (k == x.1) with
    | true => rfl
    | false =>
      simp only [List.map_cons, List.nodup_cons] at hnd
      exact ih hnd.2 k
  | swap x y l =>
    intro hnd k
    simp only [List.map_cons, List.nodup_cons, List.mem_cons] at hnd
    have hxy : y.1 ≠ x.1 := fun he => hnd.1 (Or.inl he)
    rw [lookup_cons, lookup_cons, lookup_cons, lookup_cons]
    by_cases hky : k = y.1
    · rw [if_pos (beq_iff_eq.mpr hky), if_neg, if_pos (beq_iff_eq.mpr hky)]
      simp only [beq_iff_eq]
      omega
    · rw [if_neg (by simp only [beq_iff_eq]; exact hky)]
      by_cases hkx : k = x.1
      · rw [if_pos (beq_iff_eq.mpr hkx), if_pos (beq_iff_eq.mpr hkx)]
      · rw [if_neg (by simp only [beq_iff_eq]; exact hkx),
          if_neg (by simp only [beq_iff_eq]; exact hkx),
          if_neg (by simp only [beq_iff_eq]; exact hky)]
  | trans h1 h2 ih1 ih2 =>
    intro hnd k
    rw [ih1 hnd k, ih2 (((h1.map Prod.fst).nodup_iff).mp hnd) k]

/-- `reassemble` (sort by chunk index, look up, concatenate) is invariant
under permutation of the collected chunk map when indices are distinct. -/
theorem reassemble_perm {m1 m2 : List (Nat × List Nat)} (h : m1.Perm m2)
    (hnd : (m1.map Prod.fst).Nodup) : reassemble m1 = reassemble m2 := by
  have hs1 : List.Sorted (· ≤ ·) ((m1.map Prod.fst).insertionSort (· ≤ ·)) :=
    List.sorted_insertionSort _ _
  have hs2 : List.Sorted (· ≤ ·) ((m2.map Prod.fst).insertionSort (· ≤ ·)) :=
    List.sorted_insertionSort _ _
  have hsort : (m1.map Prod.fst).insertionSort (· ≤ ·)
      = (m2.map Prod.fst).insertionSort (· ≤ ·) :=
    List.eq_of_perm_of_sorted
      (((List.perm_insertionSort _ _).trans (h.map Prod.fst)).trans
        (List.perm_insertionSort _ _).symm) hs1 hs2
  unfold reassemble
  rw [hsort]
  congr 1
  apply List.map_congr_left
  intro i _
  rw [lookup_eq_of_perm h hnd i]

theorem collectChunks_eq_parsed (l : List (List Nat))
    (hnd : ((parsedPairs l).map Prod.fst).Nodup) :
    collectChunks l = parsedPairs l := by
  unfold collectChunks
  rw [collect_foldl_parsed l []]
  exact foldl_mapSet_nodup (parsedPairs l) [] (by simpa using hnd)

theorem readData_ok_warn (b64 decomp : List Nat → List Nat) (tc : Nat)
    (l : List (List Nat)) (d : List Nat) (w : Bool)
    (h : readData b64 decomp tc l = Except.ok (d, w)) :
    w = chunkCountWarning tc l := by
  unfold readData at h
  by_cases he : (collectChunks l).isEmpty
  · rw [if_pos he] at h
    exact Except.noConfusion h
  · rw [if_neg he] at h
    injection h with h2
    have := congrArg Prod.snd h2
    simp only at this
    exact this.symm

/-- C8.  The reconstructor's output depends only on the collected set of
`(chunkIndex, bytes)` pairs, not on the order in which the chunk
instructions appear in the transaction history (indices being distinct,
as an intact session guarantees): the whole of `readData` — including
the error case, the reconstructed bytes and the warning flag — is
invariant under permutation of the instruction list.  Sorting by chunk
index precedes concatenation (`reassemble`), and a chunk count differing
from the declared `totalChunks` sets the warning flag rather than being
ignored. -/
theorem readData_order_invariant (b64 decomp : List Nat → List Nat)
    (tc : Nat) (l1 l2 : List (List Nat)) (hperm : l1.Perm l2)
    (hnd : ((parsedPairs l1).map Prod.fst).Nodup) :
    readData b64 decomp tc l1 = readData b64 decomp tc l2 ∧
    (chunkCountWarning tc l1 = true ↔ (collectChunks l1).length ≠ tc) ∧
    (∀ d w, readData b64 decomp tc l1 = Except.ok (d, w) →
      w = chunkCountWarning tc l1) := by
  have hpp : (parsedPairs l1).Perm (parsedPairs l2) :=
    hperm.filterMap parseChunkInstruction
  have hnd2 : ((parsedPairs l2).map Prod.fst).Nodup :=
    ((hpp.map Prod.fst).nodup_iff).mp hnd
  have hc1 : collectChunks l1 = parsedPairs l1 := collectChunks_eq_parsed l1 hnd
  have hc2 : collectChunks l2 = parsedPairs l2 := collectChunks_eq_parsed l2 hnd2
  refine ⟨?_, ?_, readData_ok_warn b64 decomp tc l1⟩
  · unfold readData
    rw [hc1, hc2]
    have hlen : (parsedPairs l1).length = (parsedPairs l2).length := hpp.length_eq
    have hemp : (parsedPairs l1).isEmpty = (parsedPairs l2).isEmpty := by
      cases h1 : (parsedPairs l1) with
      | nil => cases h2 : (parsedPairs l2) with
        | nil => rfl
        | cons b bs => rw [h1, h2] at hlen; simp at hlen
      | cons a as => cases h2 : (parsedPairs l2) with
        | nil => rw [h1, h2] at hlen; simp at hlen
        | cons b bs => rfl
    rw [← hemp]
    by_cases he : (parsedPairs l1).isEmpty
    · rw [if_pos he, if_pos he]
    · rw [if_neg he, if_neg he, hlen, reassemble_perm hpp hnd]
  · unfold chunkCountWarning
    exact bne_iff_ne

/-- Witness for C8: two chunk instructions fed in both orders produce
the identical `readData` result. -/
theorem readData_order_invariant_witness :
    readData (fun l => l) (fun l => l) 2
      [buildChunkInstruction (List.replicate 16 0) 0 [5],
       buildChunkInstruction (List.replicate 16 0) 1 [6]] =
    readData (fun l => l) (fun l => l) 2
      [buildChunkInstruction (List.replicate 16 0) 1 [6],
       buildChunkInstruction (List.replicate 16 0) 0 [5]] ∧
    (chunkCountWarning 2
      [buildChunkInstruction (List.replicate 16 0) 0 [5],
       buildChunkInstruction (List.replicate 16 0) 1 [6]] = true ↔
     (collectChunks
      [buildChunkInstruction (List.replicate 16 0) 0 [5],
       buildChunkInstruction (List.replicate 16 0) 1 [6]]).length ≠ 2) := by
  have h := readData_order_invariant (fun l => l) (fun l => l) 2
    [buildChunkInstruction (List.replicate 16 0) 0 [5],
     buildChunkInstruction (List.replicate 16 0) 1 [6]]
    [buildChunkInstruction (List.replicate 16 0) 1 [6],
     buildChunkInstruction (List.replicate 16 0) 0 [5]]
    (by decide) (by decide)
  exact ⟨h.1, h.2.1⟩

/-- C10.  When several chunk instructions carry the same chunk index,
the chunk map silently keeps the bytes of the last one processed
(`Map.set` overwrites), no duplicate warning or error is raised, and —
as long as the deduplicated count matches `totalChunks` — the
chunk-count warning stays off.  The last conjunct is the general
statement: after processing any history, an instruction for index `i`
appended at the end determines the bytes stored for `i`. -/
theorem readData_duplicate_index_last_wins (sid c1 c2 : List Nat)
    (h16 : sid.length = 16) :
    collectChunks [buildChunkInstruction sid 0 c1,
      buildChunkInstruction sid 0 c2] = [(0, c2)] ∧
    chunkCountWarning 1 [buildChunkInstruction sid 0 c1,
      buildChunkInstruction sid 0 c2] = false ∧
    (∀ (l : List (List Nat)) (sid2 : List Nat) (i : Nat) (c : List Nat),
      sid2.length = 16 → i < 4294967296 →
      (collectChunks (l ++ [buildChunkInstruction sid2 i c])).lookup i
        = some c) := by
  have hcoll : collectChunks [buildChunkInstruction sid 0 c1,
      buildChunkInstruction sid 0 c2] = [(0, c2)] := by
    unfold collectChunks
    simp only [List.foldl_cons, List.foldl_nil,
      parse_build sid 0 c1 h16 (by omega),
      parse_build sid 0 c2 h16 (by omega)]
    rfl
  refine ⟨hcoll, ?_, ?_⟩
  · unfold chunkCountWarning
    rw [hcoll]
    rfl
  · intro l sid2 i c h16b hi
    rw [collectChunks_append_last l (buildChunkInstruction sid2 i c) i c
      (parse_build sid2 i c h16b hi)]
    exact lookup_mapSet_self (collectChunks l) i c

/-- Witness for C10 at concrete inputs. -/
theorem readData_duplicate_index_last_wins_witness :
    collectChunks [buildChunkInstruction (List.replicate 16 0) 0 [1],
      buildChunkInstruction (List.replicate 16 0) 0 [2]] = [(0, [2])] ∧
    chunkCountWarning 1 [buildChunkInstruction (List.replicate 16 0) 0 [1],
      buildChunkInstruction (List.replicate 16 0) 0 [2]] = false ∧
    (collectChunks [buildChunkInstruction (List.replicate 16 0) 0 [3]]).lookup 0
      = some [3] := by
  have h := readData_duplicate_index_last_wins (List.replicate 16 0) [1] [2]
    (by decide)
  refine ⟨h.1, h.2.1, ?_⟩
  have h2 := h.2.2 [] (List.replicate 16 0) 0 [3] (by decide) (by decide)
  simpa using h2

/-! ## IQLabsAPI.checkConfirmationStatus (VectorSearchEngine.d.ts lines 587-627)

Each polling round calls `getSignatureStatuses(signatures)` once; the
oracle `st round j` is the status that query reports for signature index
`j` in that round. -/

/-- The per-signature status reported by one `getSignatureStatuses`
round: `missing` is a `null` entry, `errored` has `status.err` set,
`landed` is an entry whose `confirmationStatus` is only `processed`,
`confOk`/`finalOk` are `confirmed`/`finalized`.  (The code checks `err`
before `confirmationStatus`, so an entry with both is `errored`.) -/
inductive PollStatus where
  | missing
  | errored
  | landed
  | confOk
  | finalOk
deriving DecidableEq

/-- Body of the inner `for (j …)` loop: skip indices already in the
`confirmed` set, skip `null`, log-and-skip errors, add indices whose
status reached `confirmed` or `finalized`. -/
def pollAdd (st : Nat → PollStatus) (acc : List Nat) (j : Nat) : List Nat :=
  if acc.contains j then acc
  else match st j with
    | PollStatus.confOk => acc ++ [j]
    | PollStatus.finalOk => acc ++ [j]
    | _ => acc

/-- One polling round over all `n` signature indices. -/
def roundStep (st : Nat → PollStatus) (n : Nat) (conf : List Nat) : List Nat :=
  (List.range n).foldl (pollAdd st) conf

/-- Observable outcome of the polling loop: the confirmed index set, the
number of rounds executed, and the batch size of each status query
issued (one entry per `getSignatureStatuses` call). -/
structure PollResult where
  confirmedIdx : List Nat
  rounds : Nat
  queries : List Nat
deriving DecidableEq

/-- The `for (i < maxAttempts)` loop with its early `break` once every
signature is confirmed; `remaining` is the number of iterations left
(`maxAttempts - i`), `i` the current round number. -/
def pollGo (st : Nat → Nat → PollStatus) (n : Nat) :
    Nat → Nat → List Nat → List Nat → PollResult
  | 0, i, conf, qs => ⟨conf, i, qs⟩
  | remaining + 1, i, conf, qs =>
    if (roundStep (st i) n conf).length = n then
      ⟨roundStep (st i) n conf, i + 1, qs ++ [n]⟩
    else pollGo st n remaining (i + 1) (roundStep (st i) n conf) (qs ++ [n])

/-- `checkConfirmationStatus` for `n` signatures with
`maxAttempts = maxWaitSeconds` rounds (one per second). -/
def checkConfirmationStatus (st : Nat → Nat → PollStatus)
    (n maxAttempts : Nat) : PollResult :=
  pollGo st n maxAttempts 0 [] []

/-- The final `confirmedSigs` list (indices `0 … n-1` in order that are
in the confirmed set). -/
def confirmedList (r : PollResult) (n : Nat) : List Nat :=
  (List.range n).filter (fun j => r.confirmedIdx.contains j)

/-- The final `failed` index list (indices not in the confirmed set). -/
def failedList (r : PollResult) (n : Nat) : List Nat :=
  (List.range n).filter (fun j => !(r.confirmedIdx.contains j))

theorem contains_iff_mem (l : List Nat) (a : Nat) :
    l.contains a = true ↔ a ∈ l :=
  List.elem_iff

theorem mem_pollAdd (st : Nat → PollStatus) (acc : List Nat) (i j : Nat)
    (h : j ∈ acc) : j ∈ pollAdd st acc i := by
  unfold pollAdd
  by_cases hc : acc.contains i = true
  · rw [if_pos hc]
    exact h
  · rw [if_neg hc]
    cases st i <;> simp [h]

theorem mem_pollAdd_elim (st : Nat → PollStatus) (acc : List Nat) (i j : Nat)
    (h : j ∈ pollAdd st acc i) :
    j ∈ acc ∨ (j = i ∧ (st i = PollStatus.confOk ∨ st i = PollStatus.finalOk)) := by
  unfold pollAdd at h
  by_cases hc : acc.contains i = true
  · rw [if_pos hc] at h
    exact Or.inl h
  · rw [if_neg hc] at h
    cases hsi : st i <;> rw [hsi] at h <;>
      first
      | exact Or.inl h
      | (rcases List.mem_append.mp h with h2 | h2
         · exact Or.inl h2
         · simp only [List.mem_singleton] at h2
           subst h2
           simp [hsi])

theorem pollAdd_nodup (st : Nat → PollStatus) (acc : List Nat) (i : Nat)
    (h : acc.Nodup) : (pollAdd st acc i).Nodup := by
  unfold pollAdd
  by_cases hc : acc.contains i = true
  · rw [if_pos hc]
    exact h
  · rw [if_neg hc]
    have hni : i ∉ acc := fun hm => hc ((contains_iff_mem acc i).mpr hm)
    cases st i <;>
      first
      | exact h
      | (rw [List.nodup_append]
         exact ⟨h, List.nodup_singleton i,
           fun a ha hb => by
             simp only [List.mem_singleton] at hb
             subst hb
             exact hni ha⟩)

theorem mem_foldl_pollAdd (st : Nat → PollStatus) :
    ∀ (l acc : List Nat) (j : Nat), j ∈ acc → j ∈ l.foldl (pollAdd st) acc := by
  intro l
  induction l with
  | nil => intro acc j h; exact h
  | cons i l ih =>
    intro acc j h
    exact ih (pollAdd st acc i) j (mem_pollAdd st acc i j h)

theorem mem_foldl_pollAdd_elim (st : Nat → PollStatus) :
    ∀ (l acc : List Nat) (j : Nat), j ∈ l.foldl (pollAdd st) acc →
    j ∈ acc ∨ (j ∈ l ∧ (st j = PollStatus.confOk ∨ st j = PollStatus.finalOk)) := by
  intro l
  induction l with
  | nil => intro acc j h; exact Or.inl h
  | cons i l ih =>
    intro acc j h
    rcases ih (pollAdd st acc i) j h with h2 | h2
    · rcases mem_pollAdd_elim st acc i j h2 with h3 | h3
      · exact Or.inl h3
      · refine Or.inr ⟨?_, ?_⟩
        · rw [h3.1]; exact List.mem_cons_self i l
        · rw [h3.1]; exact h3.2
    · exact Or.inr ⟨List.mem_cons_of_mem i h2.1, h2.2⟩

theorem foldl_pollAdd_nodup (st : Nat → PollStatus) :
    ∀ (l acc : List Nat), acc.Nodup → (l.foldl (pollAdd st) acc).Nodup := by
  intro l
  induction l with
  | nil => intro acc h; exact h
  | cons i l ih =>
    intro acc h
    exact ih (pollAdd st acc i) (pollAdd_nodup st acc i h)

theorem roundStep_subset_range (st : Nat → PollStatus) (n : Nat)
    (conf : List Nat) (hsub : ∀ x ∈ conf, x ∈ List.range n) :
    ∀ x ∈ roundStep st n conf, x ∈ List.range n := by
  intro x hx
  rcases mem_foldl_pollAdd_elim st (List.range n) conf x hx with h | h
  · exact hsub x h
  · exact h.1

/-- C4.  The confirmation tracker is monotonic and partitions its input:
(1) a signature once in the confirmed set stays there through every
round; (2) a round's outcome does not depend on the statuses of
already-confirmed signatures (they are skipped, never re-checked); (3)
the final confirmed list and failed index list are disjoint; (4)
together they cover every input signature index. -/
theorem checkConfirmationStatus_monotone_partition
    (st : Nat → Nat → PollStatus) (n maxAttempts : Nat) :
    (∀ (round : Nat → PollStatus) (conf : List Nat) (j : Nat),
      j ∈ conf → j ∈ roundStep round n conf) ∧
    (∀ (r1 r2 : Nat → PollStatus) (conf : List Nat),
      (∀ j, j ∉ conf → r1 j = r2 j) →
      roundStep r1 n conf = roundStep r2 n conf) ∧
    (∀ j, j ∈ confirmedList (checkConfirmationStatus st n maxAttempts) n →
      j ∉ failedList (checkConfirmationStatus st n maxAttempts) n) ∧
    (∀ j, j < n →
      j ∈ confirmedList (checkConfirmationStatus st n maxAttempts) n ∨
      j ∈ failedList (checkConfirmationStatus st n maxAttempts) n) := by
  refine ⟨?_, ?_, ?_, ?_⟩
  · intro round conf j h
    exact mem_foldl_pollAdd round (List.range n) conf j h
  · intro r1 r2 conf hagree
    unfold roundStep
    suffices hgen : ∀ (l acc : List Nat), (∀ x ∈ conf, x ∈ acc) →
        l.foldl (pollAdd r1) acc = l.foldl (pollAdd r2) acc by
      exact hgen (List.range n) conf (fun x hx => hx)
    intro l
    induction l with
    | nil => intro acc _; rfl
    | cons i l ih =>
      intro acc hacc
      simp only [List.foldl_cons]
      have hstep : pollAdd r1 acc i = pollAdd r2 acc i := by
        unfold pollAdd
        by_cases hc : acc.contains i = true
        · rw [if_pos hc, if_pos hc]
        · rw [if_neg hc, if_neg hc]
          have hni : i ∉ conf := fun hm =>
            hc ((contains_iff_mem acc i).mpr (hacc i hm))
          rw [hagree i hni]
      rw [hstep]
      exact ih (pollAdd r2 acc i)
        (fun x hx => mem_pollAdd r2 acc i x (hacc x hx))
  · intro j hc hf
    rw [confirmedList, List.mem_filter] at hc
    rw [failedList, List.mem_filter] at hf
    rw [hc.2] at hf
    simp at hf
  · intro j hj
    by_cases hc : (checkConfirmationStatus st n maxAttempts).confirmedIdx.contains j = true
    · left
      rw [confirmedList, List.mem_filter]
      exact ⟨List.mem_range.mpr hj, hc⟩
    · right
      rw [failedList, List.mem_filter]
      refine ⟨List.mem_range.mpr hj, ?_⟩
      simp only [Bool.not_eq_true] at hc
      rw [hc]
      rfl

/-- Witness for C4 at a concrete run (two signatures, two rounds, the
second signature never confirms). -/
theorem checkConfirmationStatus_monotone_partition_witness :
    (0 : Nat) ∈ roundStep (fun _ => PollStatus.confOk) 2 [0] ∧
    roundStep (fun _ => PollStatus.errored) 2 [0] =
      roundStep (fun _ => PollStatus.errored) 2 [0] ∧
    ((0 : Nat) ∈ confirmedList (checkConfirmationStatus
      (fun _ j => if j == 0 then PollStatus.confOk else PollStatus.errored) 2 2) 2 →
      (0 : Nat) ∉ failedList (checkConfirmationStatus
      (fun _ j => if j == 0 then PollStatus.confOk else PollStatus.errored) 2 2) 2) ∧
    ((1 : Nat) ∈ confirmedList (checkConfirmationStatus
      (fun _ j => if j == 0 then PollStatus.confOk else PollStatus.errored) 2 2) 2 ∨
      (1 : Nat) ∈ failedList (checkConfirmationStatus
      (fun _ j => if j == 0 then PollStatus.confOk else PollStatus.errored) 2 2) 2) := by
  have h := checkConfirmationStatus_monotone_partition
    (fun _ j => if j == 0 then PollStatus.confOk else PollStatus.errored) 2 2
  refine ⟨?_, ?_, h.2.2.1 0, h.2.2.2 1 (by decide)⟩
  · exact h.1 (fun _ => PollStatus.confOk) [0] 0 (by decide)
  · exact h.2.1 (fun _ => PollStatus.errored) (fun _ => PollStatus.errored) [0]
      (fun _ _ => rfl)

/-- C5 counterexample.  A signature whose status carries an error in
every round (visible already in round 0) does NOT make the loop stop:
the code only logs the error and `continue`s, the early `break` requires
every signature to be confirmed, so the loop runs all `maxAttempts = 3`
rounds — the full `maxWaitSeconds` budget — and the signature is
reported failed only at the end, not immediately (1 round). -/
theorem checkConfirmationStatus_errored_waits_full_budget :
    (checkConfirmationStatus (fun _ _ => PollStatus.errored) 1 3).rounds = 3 ∧
    failedList (checkConfirmationStatus (fun _ _ => PollStatus.errored) 1 3) 1
      = [0] ∧
    (checkConfirmationStatus (fun _ _ => PollStatus.errored) 1 3).rounds ≠ 1 := by
  decide

theorem pollGo_stuck (st : Nat → Nat → PollStatus) (n j : Nat)
    (hj : j < n) (herr : ∀ i, st i j = PollStatus.errored) :
    ∀ (rem i : Nat) (conf qs : List Nat), conf.Nodup →
    (∀ x ∈ conf, x ∈ List.range n) → j ∉ conf →
    j ∉ (pollGo st n rem i conf qs).confirmedIdx ∧
    (pollGo st n rem i conf qs).rounds = i + rem := by
  intro rem
  induction rem with
  | zero =>
    intro i conf qs _ _ hnj
    exact ⟨hnj, rfl⟩
  | succ r ih =>
    intro i conf qs hnd hsub hnj
    have hnj2 : j ∉ roundStep (st i) n conf := by
      intro hmem
      rcases mem_foldl_pollAdd_elim (st i) (List.range n) conf j hmem with h | h
      · exact hnj h
      · rw [herr i] at h
        rcases h.2 with h2 | h2 <;> exact PollStatus.noConfusion h2
    have hnd2 : (roundStep (st i) n conf).Nodup :=
      foldl_pollAdd_nodup (st i) (List.range n) conf hnd
    have hsub2 : ∀ x ∈ roundStep (st i) n conf, x ∈ List.range n :=
      roundStep_subset_range (st i) n conf hsub
    have hlt : (roundStep (st i) n conf).length < n := by
      have hsubf : (roundStep (st i) n conf).toFinset ⊆
          ((List.range n).toFinset.erase j) := by
        intro x hx
        rw [List.mem_toFinset] at hx
        rw [Finset.mem_erase]
        refine ⟨fun he => hnj2 (he ▸ hx), ?_⟩
        rw [List.mem_toFinset]
        exact hsub2 x hx
      have hcard := Finset.card_le_card hsubf
      rw [List.toFinset_card_of_nodup hnd2] at hcard
      have hjr : j ∈ (List.range n).toFinset := by
        rw [List.mem_toFinset]
        exact List.mem_range.mpr hj
      rw [Finset.card_erase_of_mem hjr,
        List.toFinset_card_of_nodup (List.nodup_range n)] at hcard
      simp only [List.length_range] at hcard
      omega
    have hunf : pollGo st n (r + 1) i conf qs =
        if (roundStep (st i) n conf).length = n then
          ⟨roundStep (st i) n conf, i + 1, qs ++ [n]⟩
        else pollGo st n r (i + 1) (roundStep (st i) n conf) (qs ++ [n]) := rfl
    rw [hunf, if_neg (by omega)]
    have := ih (i + 1) (roundStep (st i) n conf) (qs ++ [n]) hnd2 hsub2 hnj2
    exact ⟨this.1, by rw [this.2]; omega⟩

/-- C5 (amended).  An errored signature is never added to the confirmed
set and is reported in the `failed` list of the final result — but not
"immediately": the loop merely skips it each round, so as long as one
signature never confirms the polling loop runs all `maxAttempts` rounds,
spending the entire `maxWaitSeconds` budget. -/
theorem checkConfirmationStatus_errored_fails_at_end
    (st : Nat → Nat → PollStatus) (n maxAttempts j : Nat)
    (hj : j < n) (herr : ∀ i, st i j = PollStatus.errored) :
    j ∈ failedList (checkConfirmationStatus st n maxAttempts) n ∧
    (checkConfirmationStatus st n maxAttempts).rounds = maxAttempts := by
  have h := pollGo_stuck st n j hj herr maxAttempts 0 [] []
    List.nodup_nil (by intro x hx; exact absurd hx (List.not_mem_nil x)) (List.not_mem_nil j)
  refine ⟨?_, by unfold checkConfirmationStatus; rw [h.2]; omega⟩
  rw [failedList, List.mem_filter]
  refine ⟨List.mem_range.mpr hj, ?_⟩
  have : (checkConfirmationStatus st n maxAttempts).confirmedIdx.contains j ≠ true :=
    fun hc => h.1 ((contains_iff_mem _ j).mp hc)
  simp only [Bool.not_eq_true] at this ⊢
  rw [this]
  rfl

/-- Witness for C5's amended theorem at a concrete run. -/
theorem checkConfirmationStatus_errored_fails_at_end_witness :
    (0 : Nat) ∈ failedList
      (checkConfirmationStatus (fun _ _ => PollStatus.errored) 1 2) 1 ∧
    (checkConfirmationStatus (fun _ _ => PollStatus.errored) 1 2).rounds = 2 :=
  checkConfirmationStatus_errored_fails_at_end
    (fun _ _ => PollStatus.errored) 1 2 0 (by decide) (fun _ => rfl)

theorem pollGo_queries (st : Nat → Nat → PollStatus) (n : Nat) :
    ∀ (rem i : Nat) (conf qs : List Nat),
    (pollGo st n rem i conf qs).queries =
      qs ++ List.replicate ((pollGo st n rem i conf qs).rounds - i) n ∧
    i ≤ (pollGo st n rem i conf qs).rounds ∧
    (pollGo st n rem i conf qs).rounds ≤ i + rem := by
  intro rem
  induction rem with
  | zero =>
    intro i conf qs
    simp [pollGo]
  | succ r ih =>
    intro i conf qs
    have hunf : pollGo st n (r + 1) i conf qs =
        if (roundStep (st i) n conf).length = n then
          ⟨roundStep (st i) n conf, i + 1, qs ++ [n]⟩
        else pollGo st n r (i + 1) (roundStep (st i) n conf) (qs ++ [n]) := rfl
    rw [hunf]
    by_cases hlen : (roundStep (st i) n conf).length = n
    · rw [if_pos hlen]
      refine ⟨?_, by dsimp only; omega, by dsimp only; omega⟩
      have h1 : i + 1 - i = 1 := by omega
      show qs ++ [n] = qs ++ List.replicate (i + 1 - i) n
      rw [h1]
      rfl
    · rw [if_neg hlen]
      have h := ih (i + 1) (roundStep (st i) n conf) (qs ++ [n])
      refine ⟨?_, by omega, by omega⟩
      rw [h.1, List.append_assoc]
      congr 1
      have hrk : (pollGo st n r (i + 1) (roundStep (st i) n conf) (qs ++ [n])).rounds - i
          = ((pollGo st n r (i + 1) (roundStep (st i) n conf) (qs ++ [n])).rounds - (i + 1)) + 1 := by
        have := h.2.1
        omega
      rw [hrk, List.replicate_succ]
      rfl

/-- C7.  Each polling round of `checkConfirmationStatus` issues exactly
one batched `getSignatureStatuses` query — the query trace has one entry
per executed round — and every query covers the entire signature list
(batch size `n`), never one query per signature; the number of rounds is
bounded by `maxAttempts`. -/
theorem checkConfirmationStatus_one_query_per_round
    (st : Nat → Nat → PollStatus) (n maxAttempts : Nat) :
    (checkConfirmationStatus st n maxAttempts).queries =
      List.replicate (checkConfirmationStatus st n maxAttempts).rounds n ∧
    (checkConfirmationStatus st n maxAttempts).queries.length =
      (checkConfirmationStatus st n maxAttempts).rounds ∧
    (checkConfirmationStatus st n maxAttempts).rounds ≤ maxAttempts := by
  have h := pollGo_queries st n maxAttempts 0 [] []
  unfold checkConfirmationStatus
  refine ⟨?_, ?_, by omega⟩
  · rw [h.1]
    simp
  · rw [h.1]
    simp

/-! ## IQLabsAPI.signAndSendTransactionsParallel (VectorSearchEngine.d.ts
lines 511-583)

Transactions are modelled as `Nat` identifiers and a dispatched
transaction's signature as the transaction itself (the claims here only
track which transactions each round dispatches and which confirm).  The
oracle `ok round tx` says whether the dispatch of `tx` in that round is
classified confirmed by the following `checkConfirmationStatus` call
(round 0 = initial send, rounds 1 and 2 = the two retry rounds). -/

/-- The `failed` index list a `checkConfirmationStatus` call returns for
a dispatched list `txs`: positions whose transaction did not confirm.
NOTE these indices are positions in `txs`, not in the original
transaction list. -/
def failedIdx (ok : Nat → Bool) (txs : List Nat) : List Nat :=
  (List.range txs.length).filter (fun j => !(ok (txs.getD j 0)))

/-- The confirmed signatures such a call returns (index order). -/
def confirmedSigs (ok : Nat → Bool) (txs : List Nat) : List Nat :=
  txs.filter ok

instance {e a : Type} [DecidableEq e] [DecidableEq a] :
    DecidableEq (Except e a) := fun x y =>
  match x, y with
  | Except.error u, Except.error v =>
    if h : u = v then isTrue (by rw [h])
    else isFalse (fun hc => h (by injection hc))
  | Except.ok u, Except.ok v =>
    if h : u = v then isTrue (by rw [h])
    else isFalse (fun hc => h (by injection hc))
  | Except.error _, Except.ok _ => isFalse (fun hc => Except.noConfusion hc)
  | Except.ok _, Except.error _ => isFalse (fun hc => Except.noConfusion hc)

/-- Observable trace of one `signAndSendTransactionsParallel` run: the
transaction list dispatched in each retry round, and either the final
signature list or the error payload — the count `toRetry.length`, the
only datum the thrown message carries. -/
structure ParallelTrace where
  retryDispatched : List (List Nat)
  result : Except Nat (List Nat)
deriving DecidableEq

/-- `signAndSendTransactionsParallel`: initial dispatch of all
transactions, then `for (attempt = 1; attempt <= 2 && toRetry.length > 0)`
re-dispatching `toRetry.map(idx => transactions[idx])` — note the code
indexes the ORIGINAL `transactions` array with `toRetry`, even though
after the first retry `toRetry` holds indices into the previous round's
retried sublist; finally `throw` when transactions remain unconfirmed. -/
def signAndSendTransactionsParallel (ok : Nat → Nat → Bool)
    (transactions : List Nat) : ParallelTrace :=
  if (failedIdx (ok 0) transactions).isEmpty then
    ⟨[], Except.ok (confirmedSigs (ok 0) transactions)⟩
  else
    if (failedIdx (ok 1)
        ((failedIdx (ok 0) transactions).map
          (fun idx => transactions.getD idx 0))).isEmpty then
      ⟨[(failedIdx (ok 0) transactions).map (fun idx => transactions.getD idx 0)],
        Except.ok (confirmedSigs (ok 0) transactions ++
          confirmedSigs (ok 1)
            ((failedIdx (ok 0) transactions).map
              (fun idx => transactions.getD idx 0)))⟩
    else
      if (failedIdx (ok 2)
          ((failedIdx (ok 1)
            ((failedIdx (ok 0) transactions).map
              (fun idx => transactions.getD idx 0))).map
            (fun idx => transactions.getD idx 0))).isEmpty then
        ⟨[(failedIdx (ok 0) transactions).map (fun idx => transactions.getD idx 0),
          (failedIdx (ok 1)
            ((failedIdx (ok 0) transactions).map
              (fun idx => transactions.getD idx 0))).map
            (fun idx => transactions.getD idx 0)],
          Except.ok (confirmedSigs (ok 0) transactions ++
            confirmedSigs (ok 1)
              ((failedIdx (ok 0) transactions).map
                (fun idx => transactions.getD idx 0)) ++
            confirmedSigs (ok 2)
              ((failedIdx (ok 1)
                ((failedIdx (ok 0) transactions).map
                  (fun idx => transactions.getD idx 0))).map
                (fun idx => transactions.getD idx 0)))⟩
      else
        ⟨[(failedIdx (ok 0) transactions).map (fun idx => transactions.getD idx 0),
          (failedIdx (ok 1)
            ((failedIdx (ok 0) transactions).map
              (fun idx => transactions.getD idx 0))).map
            (fun idx => transactions.getD idx 0)],
          Except.error (failedIdx (ok 2)
            ((failedIdx (ok 1)
              ((failedIdx (ok 0) transactions).map
                (fun idx => transactions.getD idx 0))).map
              (fun idx => transactions.getD idx 0))).length⟩

/-- C6.  The retry-round bound holds (at most 2 retry rounds, last
conjunct, for every oracle and transaction list), but the claim's other
two parts FAIL, evaluated here on transactions `[10, 20, 30]` where the
initial round confirms only `10` and retry round 1 confirms only `20`:
`checkConfirmationStatus` returns failed indices relative to the retried
sublist `[20, 30]` (namely `[1]`), which the code then uses to index the
ORIGINAL array, so retry round 2 re-dispatches `[20]` — an
already-confirmed transaction — instead of the still-unconfirmed `[30]`;
the run then "succeeds" with final signatures `[10, 20, 20]` even though
transaction `30` was never confirmed, and the error path (had it been
reached) reports only a count, not the unconfirmed chunk indices. -/
theorem signAndSendParallel_retry_remaps_wrong_transactions :
    signAndSendTransactionsParallel
      (fun r t => if r == 0 then t == 10 else if r == 1 then t == 20 else true)
      [10, 20, 30] =
      ⟨[[20, 30], [20]], Except.ok [10, 20, 20]⟩ ∧
    ([20] : List Nat) ≠ [30] ∧
    (30 : Nat) ∉ [10, 20, 20] ∧
    (∀ (ok : Nat → Nat → Bool) (transactions : List Nat),
      (signAndSendTransactionsParallel ok transactions).retryDispatched.length ≤ 2) := by
  refine ⟨by decide, by decide, by decide, ?_⟩
  intro ok transactions
  unfold signAndSendTransactionsParallel
  split
  · simp
  · split
    · simp
    · split <;> simp

/-! ## LargeDataStorage.retrieveLargeData (LargeDataStorage.js lines 178-242) -/

/-- The `for (attempt = 1; attempt <= maxRetries)` loop of
`retrieveLargeData`: fetch metadata (the oracle `statuses attempt` is
the `status` string it reports), refuse to download unless it is
`'finalized'`, wait and retry while attempts remain, throw
`Session not finalized` on the last attempt; `remaining` is
`maxRetries - attempt + 1`.  `dl` is the payload
`api.downloadSession` would return. -/
def retrieveLoop (statuses : Nat → String) (dl : List Nat) :
    Nat → Nat → Except String (List Nat)
  | 0, _ => Except.error "Failed to retrieve data after maxRetries attempts"
  | remaining + 1, attempt =>
    if statuses attempt == "finalized" then Except.ok dl
    else if remaining == 0 then
      Except.error "Session not finalized after maxRetries attempts"
    else retrieveLoop statuses dl remaining (attempt + 1)

/-- `retrieveLargeData` with `maxRetries` attempts, starting at attempt 1. -/
def retrieveLargeData (statuses : Nat → String) (dl : List Nat)
    (maxRetries : Nat) : Except String (List Nat) :=
  retrieveLoop statuses dl maxRetries 1

theorem retrieveLoop_ok (statuses : Nat → String) (dl : List Nat) :
    ∀ (rem attempt : Nat) (d : List Nat),
    retrieveLoop statuses dl rem attempt = Except.ok d →
    ∃ t, attempt ≤ t ∧ t < attempt + rem ∧ statuses t = "finalized" ∧ d = dl := by
  intro rem
  induction rem with
  | zero =>
    intro attempt d h
    exact Except.noConfusion h
  | succ r ih =>
    intro attempt d h
    unfold retrieveLoop at h
    by_cases hf : (statuses attempt == "finalized") = true
    · rw [if_pos hf] at h
      injection h with h2
      exact ⟨attempt, le_refl _, by omega, beq_iff_eq.mp hf, h2.symm⟩
    · rw [if_neg hf] at h
      by_cases hr : (r == 0) = true
      · rw [if_pos hr] at h
        exact Except.noConfusion h
      · rw [if_neg hr] at h
        rcases ih (attempt + 1) d h with ⟨t, ht1, ht2, ht3, ht4⟩
        exact ⟨t, by omega, by omega, ht3, ht4⟩

theorem retrieveLoop_unfinalized (statuses : Nat → String) (dl : List Nat) :
    ∀ (rem attempt : Nat),
    (∀ t, attempt ≤ t → t < attempt + rem → statuses t ≠ "finalized") →
    ∃ e, retrieveLoop statuses dl rem attempt = Except.error e := by
  intro rem
  induction rem with
  | zero =>
    intro attempt _
    exact ⟨_, rfl⟩
  | succ r ih =>
    intro attempt hall
    unfold retrieveLoop
    have hf : (statuses attempt == "finalized") ≠ true := by
      intro hb
      exact hall attempt (le_refl _) (by omega) (beq_iff_eq.mp hb)
    rw [if_neg hf]
    by_cases hr : (r == 0) = true
    · rw [if_pos hr]
      exact ⟨_, rfl⟩
    · rw [if_neg hr]
      exact ih (attempt + 1) (fun t h1 h2 => hall t (by omega) (by omega))

/-- C9.  `retrieveLargeData` downloads only after observing session
status `'finalized'`: a successful return implies some attempt
`1 ≤ t ≤ maxRetries` saw `'finalized'` (and returns the downloaded
payload); and if the session never reports `'finalized'` within the
`maxRetries` metadata fetches, the call throws an error instead of
returning data. -/
theorem retrieveLargeData_requires_finalized (statuses : Nat → String)
    (dl : List Nat) (maxRetries : Nat) :
    (∀ d, retrieveLargeData statuses dl maxRetries = Except.ok d →
      ∃ t, 1 ≤ t ∧ t ≤ maxRetries ∧ statuses t = "finalized" ∧ d = dl) ∧
    ((∀ t, 1 ≤ t → t ≤ maxRetries → statuses t ≠ "finalized") →
      ∃ e, retrieveLargeData statuses dl maxRetries = Except.error e) := by
  constructor
  · intro d h
    rcases retrieveLoop_ok statuses dl maxRetries 1 d h with ⟨t, h1, h2, h3, h4⟩
    exact ⟨t, h1, by omega, h3, h4⟩
  · intro hall
    exact retrieveLoop_unfinalized statuses dl maxRetries 1
      (fun t h1 h2 => hall t h1 (by omega))

/-- Witness for C9: a session finalized on the second attempt is
downloaded; a session never finalized yields an error. -/
theorem retrieveLargeData_requires_finalized_witness :
    (∃ t, 1 ≤ t ∧ t ≤ 3 ∧
      (fun a => if a == 2 then "finalized" else "active") t = "finalized" ∧
      ([9, 9] : List Nat) = [9, 9]) ∧
    (∃ e, retrieveLargeData (fun _ => "active") [9, 9] 3 = Except.error e) := by
  constructor
  · exact (retrieveLargeData_requires_finalized
      (fun a => if a == 2 then "finalized" else "active") [9, 9] 3).1 [9, 9]
      (by decide)
  · exact (retrieveLargeData_requires_finalized
      (fun _ => "active") [9, 9] 3).2 (fun t _ _ => by decide)

end X402
